import Mathlib

/-
Verification of the reconciliation core of the seller-apis repository
(src/seller.py and src/market.py): the stock/price reconciliation
functions `create_stocks`, `create_prices`, the price text cleaner
`price_conversion` and the batcher `divide`, embedded shallowly.

Python dict-shaped rows become Lean structures; the in-place mutation of
the caller-supplied `offer_ids` list performed by `create_stocks`
(`offer_ids.remove(...)`) is made explicit by returning the final
contents of that list alongside the produced entries; `ValueError`
raised by `int(...)` / `range(..., 0)` becomes `Option.none`; the
timestamp taken from the clock inside market's `create_stocks` becomes
an explicit `date` argument.
-/

/-- A remnant row of the downloaded spreadsheet, with the three fields the
reconciliation code reads: `Код` (code), `Количество` (quantity
descriptor) and `Цена` (price text), all strings. -/
structure Remnant where
  kod : String
  kolichestvo : String
  tsena : String
deriving DecidableEq

/-- Value of a run of ASCII digit characters read in base 10. -/
def natOfDigits (ds : List Char) : Nat :=
  ds.foldl (fun n c => 10 * n + (c.toNat - 48)) 0

/-- Strip leading and trailing whitespace from a character list, as
Python `int(...)` does to its argument before parsing. -/
def stripWS (cs : List Char) : List Char :=
  ((cs.dropWhile Char.isWhitespace).reverse.dropWhile Char.isWhitespace).reverse

/-- Models Python `int(s)` on a string: optional surrounding whitespace,
an optional single sign, then a nonempty run of ASCII digits; `none`
where Python raises `ValueError`. (Underscore digit grouping and
non-ASCII digits, which CPython also accepts, are not modelled; no input
in this code base uses them.) -/
def pyIntParse (s : String) : Option Int :=
  match stripWS s.toList with
  | [] => none
  | c :: cs =>
    if c = '-' then
      if !cs.isEmpty && cs.all Char.isDigit then some (-(natOfDigits cs : Int)) else none
    else if c = '+' then
      if !cs.isEmpty && cs.all Char.isDigit then some ((natOfDigits cs : Int)) else none
    else
      if (c :: cs).all Char.isDigit then some ((natOfDigits (c :: cs) : Int)) else none

/-- The quantity mapping applied by both `create_stocks` bodies
(src/seller.py lines 207-213, src/market.py lines 203-209): the literal
descriptor `">10"` maps to 100, the literal `"1"` maps to 0, anything
else goes through `int(...)`; `none` models the `ValueError` escape. -/
def quantityMap (count : String) : Option Int :=
  if count = ">10" then some 100
  else if count = "1" then some 0
  else pyIntParse count

/-- The quantity mapper as §4.2 of the specification words it: rules
checked in order, `">10"` to 100, `"1"` to 0, otherwise base-10 integer
parse, failing when the parse fails. Written from the spec text, to be
compared with `quantityMap` taken from the source. -/
def quantityMapperSpec (d : String) : Option Int :=
  if d = ">10" then some 100
  else if d = "1" then some 0
  else pyIntParse d

/-- The characters of `price` before its first `'.'`, i.e.
`price.split(".")[0]`: the first segment of a split on the single
character `'.'` is exactly the longest prefix free of `'.'` (the whole
string when no dot occurs), and `split` never returns an empty list, so
the indexing `[0]` never fails. -/
def beforeFirstDot (price : String) : List Char :=
  price.toList.takeWhile (fun c => c != '.')

/-- `price_conversion` of src/seller.py line 277:
`re.sub("[^0-9]", "", price.split(".")[0])` — keep only the ASCII digits
of the part before the first dot. `re.sub` never fails, so the Python
function is total; the embedding is a plain function. -/
def price_conversion (price : String) : String :=
  String.mk ((beforeFirstDot price).filter Char.isDigit)

/-- One step list of chunks: `lst[i : i + n]` slices for
`i = 0, n, 2n, ...`, the body of `divide` for a positive step `n`,
written with explicit fuel so the recursion is structural; `divide`
supplies `fuel = lst.length`, which suffices whenever `n ≥ 1`. -/
def chunkListFuel {α : Type} (n : Nat) : Nat → List α → List (List α)
  | _, [] => []
  | 0, _ :: _ => []
  | fuel + 1, x :: xs => (x :: xs).take n :: chunkListFuel n fuel ((x :: xs).drop n)

/-- All `lst[i : i + n]` slices for `i = 0, n, 2n, ...` while `i < len`. -/
def chunkList {α : Type} (n : Nat) (l : List α) : List (List α) :=
  chunkListFuel n l.length l

/-- `divide` of src/seller.py lines 301-302:
`for i in range(0, len(lst), n): yield lst[i : i + n]`, fully forced.
`range` with step 0 raises `ValueError` (the `none` branch); with a
negative step and `start = 0 <= stop` it is empty, so the generator
yields nothing and no error is raised. -/
def divide {α : Type} (lst : List α) (n : Int) : Option (List (List α)) :=
  if n = 0 then none
  else if n < 0 then some []
  else some (chunkList n.toNat lst)

/-- A stock entry appended by seller's `create_stocks`:
`{"offer_id": ..., "stock": ...}`. -/
structure StockEntry where
  offer_id : String
  stock : Int
deriving DecidableEq

/-- A price entry appended by seller's `create_prices`, all five fields of
the literal dict at src/seller.py lines 243-249. -/
structure PriceEntry where
  auto_action_enabled : String
  currency_code : String
  offer_id : String
  old_price : String
  price : String
deriving DecidableEq

/-- The inner dict of the `items` list built by market's `create_stocks`. -/
structure MarketStockItem where
  count : Int
  type : String
  updatedAt : String
deriving DecidableEq

/-- A stock entry appended by market's `create_stocks`. -/
structure MarketStockEntry where
  sku : String
  warehouseId : String
  items : List MarketStockItem
deriving DecidableEq

/-- A price entry appended by market's `create_prices`: the non-commented
fields of the literal dict at src/market.py lines 263-274. -/
structure MarketPriceEntry where
  id : String
  value : Int
  currencyId : String
deriving DecidableEq

namespace Seller

/-- The first loop of seller's `create_stocks` (src/seller.py lines
205-215) with the mutated `offer_ids` list threaded as explicit state:
each remnant whose code is in the current list appends a stock entry
with the mapped quantity and removes the first occurrence of its code
(`list.remove`); `none` models the `ValueError` from `int(...)`. -/
def stocksLoop : List Remnant → List String → Option (List StockEntry × List String)
  | [], offerIds => some ([], offerIds)
  | w :: ws, offerIds =>
    if w.kod ∈ offerIds then
      match quantityMap w.kolichestvo with
      | none => none
      | some st =>
        match stocksLoop ws (offerIds.erase w.kod) with
        | none => none
        | some (es, rest) => some (⟨w.kod, st⟩ :: es, rest)
    else stocksLoop ws offerIds

/-- `create_stocks` of src/seller.py lines 182-219: the matching loop
followed by the zero-fill loop over what is left of `offer_ids`. The
returned second component is the final contents of the caller's
`offer_ids` list after the in-place removals. -/
def create_stocks (watchRemnants : List Remnant) (offerIds : List String) :
    Option (List StockEntry × List String) :=
  match stocksLoop watchRemnants offerIds with
  | none => none
  | some (matched, remaining) =>
    some (matched ++ remaining.map (fun id => ⟨id, 0⟩), remaining)

/-- `create_prices` of src/seller.py lines 222-251: one entry per remnant
whose code is in `offer_ids`, in remnant order; `offer_ids` is only
read, never mutated, and `price_conversion` is total, so the function
always returns. -/
def create_prices (watchRemnants : List Remnant) (offerIds : List String) :
    List PriceEntry :=
  match watchRemnants with
  | [] => []
  | w :: ws =>
    if w.kod ∈ offerIds then
      ⟨("UNKNOWN"), ("RUB"), w.kod, ("0"), price_conversion w.tsena⟩ ::
        create_prices ws offerIds
    else create_prices ws offerIds

end Seller

namespace Market

/-- The first loop of market's `create_stocks` (src/market.py lines
201-223), the same matching discipline as seller's, building the
market-shaped entries; `date` is the timestamp the Python code takes
from the clock once per call. -/
def stocksLoop (warehouseId date : String) :
    List Remnant → List String → Option (List MarketStockEntry × List String)
  | [], offerIds => some ([], offerIds)
  | w :: ws, offerIds =>
    if w.kod ∈ offerIds then
      match quantityMap w.kolichestvo with
      | none => none
      | some st =>
        match stocksLoop warehouseId date ws (offerIds.erase w.kod) with
        | none => none
        | some (es, rest) =>
          some (⟨w.kod, warehouseId, [⟨st, ("FIT"), date⟩]⟩ :: es, rest)
    else stocksLoop warehouseId date ws offerIds

/-- `create_stocks` of src/market.py lines 179-239, with the timestamp
`str(datetime.datetime.utcnow()...)` passed in explicitly as `date`. -/
def create_stocks (watchRemnants : List Remnant) (offerIds : List String)
    (warehouseId date : String) : Option (List MarketStockEntry × List String) :=
  match stocksLoop warehouseId date watchRemnants offerIds with
  | none => none
  | some (matched, remaining) =>
    some (matched ++ remaining.map (fun id => ⟨id, warehouseId, [⟨0, ("FIT"), date⟩]⟩),
      remaining)

/-- `create_prices` of src/market.py lines 242-276: like seller's but the
price value goes through `int(price_conversion(...))`, whose
`ValueError` on a digit-free cleaned string is modelled by `none`. -/
def create_prices (watchRemnants : List Remnant) (offerIds : List String) :
    Option (List MarketPriceEntry) :=
  match watchRemnants with
  | [] => some []
  | w :: ws =>
    if w.kod ∈ offerIds then
      match pyIntParse (price_conversion w.tsena) with
      | none => none
      | some v =>
        match create_prices ws offerIds with
        | none => none
        | some ps => some (⟨w.kod, v, ("RUR")⟩ :: ps)
    else create_prices ws offerIds

end Market

namespace Seller

/-- The matching loop moves each consumed offer id from the working list
into exactly one produced entry: the produced offer ids followed by the
final list contents are a permutation of the initial list contents. -/
theorem stocksLoop_perm :
    ∀ {R : List Remnant} {s m rem},
      stocksLoop R s = some (m, rem) →
      ((m.map fun e => e.offer_id) ++ rem).Perm s := by
  intro R
  induction R with
  | nil =>
    intro s m rem h
    simp only [stocksLoop, Option.some.injEq, Prod.mk.injEq] at h
    obtain ⟨h1, h2⟩ := h
    subst h1
    subst h2
    simp
  | cons w ws ih =>
    intro s m rem h
    simp only [stocksLoop] at h
    by_cases hmem : w.kod ∈ s
    · rw [if_pos hmem] at h
      cases hq : quantityMap w.kolichestvo with
      | none => rw [hq] at h; exact absurd h (by simp)
      | some st =>
        rw [hq] at h
        cases hrec : stocksLoop ws (s.erase w.kod) with
        | none => rw [hrec] at h; exact absurd h (by simp)
        | some p =>
          obtain ⟨es, rest⟩ := p
          rw [hrec] at h
          simp only [Option.some.injEq, Prod.mk.injEq] at h
          obtain ⟨hm, hr⟩ := h
          subst hm
          subst hr
          have hperm := ih hrec
          simp only [List.map_cons, List.cons_append]
          exact (List.Perm.cons _ hperm).trans (List.perm_cons_erase hmem).symm
    · rw [if_neg hmem] at h
      exact ih h

/-- Ids never matched stay in the working list, so the final list is a
subset of the initial one. -/
theorem stocksLoop_rem_subset {R : List Remnant} {s m rem}
    (h : stocksLoop R s = some (m, rem)) : rem ⊆ s :=
  fun _a ha => (stocksLoop_perm h).subset (List.mem_append.mpr (Or.inr ha))

/-- The loop succeeds whenever the quantity descriptor of every remnant
whose code is in the working list maps without error. -/
theorem stocksLoop_total :
    ∀ (R : List Remnant) (s : List String),
      (∀ w ∈ R, w.kod ∈ s → (quantityMap w.kolichestvo).isSome) →
      ∃ m rem, stocksLoop R s = some (m, rem) := by
  intro R
  induction R with
  | nil => exact fun s _hv => ⟨[], s, rfl⟩
  | cons w ws ih =>
    intro s hv
    by_cases hmem : w.kod ∈ s
    · have hq := hv w (List.mem_cons_self w ws) hmem
      obtain ⟨st, hst⟩ := Option.isSome_iff_exists.mp hq
      have hv2 : ∀ w2 ∈ ws, w2.kod ∈ s.erase w.kod →
          (quantityMap w2.kolichestvo).isSome := fun w2 hw2 hmem2 =>
        hv w2 (List.mem_cons_of_mem w hw2) (List.mem_of_mem_erase hmem2)
      obtain ⟨m2, rem2, hrec⟩ := ih (s.erase w.kod) hv2
      refine ⟨⟨w.kod, st⟩ :: m2, rem2, ?_⟩
      simp only [stocksLoop]
      rw [if_pos hmem, hst, hrec]
    · obtain ⟨m2, rem2, hrec⟩ :=
        ih s (fun w2 hw2 hm => hv w2 (List.mem_cons_of_mem w hw2) hm)
      refine ⟨m2, rem2, ?_⟩
      simp only [stocksLoop]
      rw [if_neg hmem]
      exact hrec

/-- Every matched entry records the code and the mapped quantity of some
remnant of the input. -/
theorem stocksLoop_matched :
    ∀ {R : List Remnant} {s m rem},
      stocksLoop R s = some (m, rem) →
      ∀ e ∈ m, ∃ w ∈ R, w.kod = e.offer_id ∧
        quantityMap w.kolichestvo = some e.stock := by
  intro R
  induction R with
  | nil =>
    intro s m rem h e he
    simp only [stocksLoop, Option.some.injEq, Prod.mk.injEq] at h
    obtain ⟨h1, _h2⟩ := h
    subst h1
    exact absurd he (List.not_mem_nil e)
  | cons w ws ih =>
    intro s m rem h e he
    simp only [stocksLoop] at h
    by_cases hmem : w.kod ∈ s
    · rw [if_pos hmem] at h
      cases hq : quantityMap w.kolichestvo with
      | none => rw [hq] at h; exact absurd h (by simp)
      | some st =>
        rw [hq] at h
        cases hrec : stocksLoop ws (s.erase w.kod) with
        | none => rw [hrec] at h; exact absurd h (by simp)
        | some p =>
          obtain ⟨es, rest⟩ := p
          rw [hrec] at h
          simp only [Option.some.injEq, Prod.mk.injEq] at h
          obtain ⟨hm, _hr⟩ := h
          subst hm
          rcases List.mem_cons.mp he with he1 | he2
          · subst he1
            exact ⟨w, List.mem_cons_self w ws, rfl, hq⟩
          · obtain ⟨w2, hw2, hkod, hqty⟩ := ih hrec e he2
            exact ⟨w2, List.mem_cons_of_mem w hw2, hkod, hqty⟩
    · rw [if_neg hmem] at h
      obtain ⟨w2, hw2, hkod, hqty⟩ := ih h e he
      exact ⟨w2, List.mem_cons_of_mem w hw2, hkod, hqty⟩

/-- When the initial working list is duplicate-free, no remnant code is
left in the final list: a remnant whose code survived to the end would
have matched at its own turn and removed the only copy of its code. -/
theorem stocksLoop_rem_unmatched :
    ∀ {R : List Remnant} {s m rem},
      s.Nodup → stocksLoop R s = some (m, rem) →
      ∀ w ∈ R, w.kod ∉ rem := by
  intro R
  induction R with
  | nil =>
    intro s m rem _hnd _h w hw
    exact absurd hw (List.not_mem_nil w)
  | cons w ws ih =>
    intro s m rem hnd h w2 hw2
    simp only [stocksLoop] at h
    by_cases hmem : w.kod ∈ s
    · rw [if_pos hmem] at h
      cases hq : quantityMap w.kolichestvo with
      | none => rw [hq] at h; exact absurd h (by simp)
      | some st =>
        rw [hq] at h
        cases hrec : stocksLoop ws (s.erase w.kod) with
        | none => rw [hrec] at h; exact absurd h (by simp)
        | some p =>
          obtain ⟨es, rest⟩ := p
          rw [hrec] at h
          simp only [Option.some.injEq, Prod.mk.injEq] at h
          obtain ⟨_hm, hr⟩ := h
          subst hr
          rcases List.mem_cons.mp hw2 with hw1 | hw2x
          · subst hw1
            intro hin
            have hins : w2.kod ∈ s.erase w2.kod := stocksLoop_rem_subset hrec hin
            exact ((List.Nodup.mem_erase_iff hnd).mp hins).1 rfl
          · exact ih (List.Nodup.erase _ hnd) hrec w2 hw2x
    · rw [if_neg hmem] at h
      rcases List.mem_cons.mp hw2 with hw1 | hw2x
      · subst hw1
        exact fun hin => hmem (stocksLoop_rem_subset h hin)
      · exact ih hnd h w2 hw2x

/-- A run in which no remnant code occurs in the working list matches
nothing and leaves the list untouched. -/
theorem stocksLoop_no_match :
    ∀ (R : List Remnant) (s : List String),
      (∀ w ∈ R, w.kod ∉ s) → stocksLoop R s = some ([], s) := by
  intro R
  induction R with
  | nil => exact fun s _h => rfl
  | cons w ws ih =>
    intro s h
    simp only [stocksLoop]
    rw [if_neg (h w (List.mem_cons_self w ws))]
    exact ih s (fun w2 hw2 => h w2 (List.mem_cons_of_mem w hw2))

/-- seller `create_prices` emits nothing when no remnant code occurs in
the offer-id list. -/
theorem create_prices_no_match :
    ∀ (R : List Remnant) (ids : List String),
      (∀ w ∈ R, w.kod ∉ ids) → create_prices R ids = [] := by
  intro R
  induction R with
  | nil => exact fun ids _h => rfl
  | cons w ws ih =>
    intro ids h
    simp only [create_prices]
    rw [if_neg (h w (List.mem_cons_self w ws))]
    exact ih ids (fun w2 hw2 => h w2 (List.mem_cons_of_mem w hw2))

/-- The offer ids of seller `create_prices` output are the remnant codes
that occur in the offer-id list, in remnant order, one per matching
remnant (duplicate codes produce duplicate entries). -/
theorem create_prices_map_offer_id :
    ∀ (R : List Remnant) (ids : List String),
      (create_prices R ids).map (fun e => e.offer_id) =
        (R.map (fun w => w.kod)).filter (fun c => decide (c ∈ ids)) := by
  intro R
  induction R with
  | nil => exact fun ids => rfl
  | cons w ws ih =>
    intro ids
    simp only [create_prices, List.map_cons, List.filter_cons]
    by_cases hmem : w.kod ∈ ids
    · rw [if_pos hmem]
      simp [ih ids, hmem]
    · rw [if_neg hmem]
      simp [ih ids, hmem]

/-- seller `create_prices` emits exactly one entry per remnant whose code
is in the offer-id list. -/
theorem create_prices_length :
    ∀ (R : List Remnant) (ids : List String),
      (create_prices R ids).length =
        (R.filter (fun w => decide (w.kod ∈ ids))).length := by
  intro R
  induction R with
  | nil => exact fun ids => rfl
  | cons w ws ih =>
    intro ids
    simp only [create_prices, List.filter_cons]
    by_cases hmem : w.kod ∈ ids
    · rw [if_pos hmem]
      simp [ih ids, hmem]
    · rw [if_neg hmem]
      simp [ih ids, hmem]

end Seller

/-- In a duplicate-free list, a member is counted exactly once. -/
theorem countP_eq_one_of_nodup_mem {l : List String} (hnd : l.Nodup) {a : String}
    (ha : a ∈ l) : l.countP (fun b => decide (b = a)) = 1 := by
  induction l with
  | nil => exact absurd ha (List.not_mem_nil a)
  | cons x xs ih =>
    rw [List.countP_cons]
    rcases List.mem_cons.mp ha with ha1 | ha2
    · subst ha1
      have hnotin : a ∉ xs := (List.nodup_cons.mp hnd).1
      have hzero : xs.countP (fun b => decide (b = a)) = 0 := by
        rw [List.countP_eq_zero]
        intro b hb
        simp only [decide_eq_true_eq]
        intro hba
        exact hnotin (hba ▸ hb)
      simp [hzero]
    · have hne : x ≠ a := by
        intro hxa
        exact (List.nodup_cons.mp hnd).1 (hxa ▸ ha2)
      have := ih (List.nodup_cons.mp hnd).2 ha2
      simp [this, hne]

section Claims

/-- Every character of a `price_conversion` result is a decimal digit. -/
theorem price_conversion_digits (s : String) :
    ∀ c ∈ (price_conversion s).toList, c.isDigit = true := by
  intro c hc
  have hmem : c ∈ (beforeFirstDot s).filter Char.isDigit := hc
  exact List.of_mem_filter hmem

/-- A `price_conversion` result is empty exactly when no digit occurs
before the first dot of the input. -/
theorem price_conversion_empty_iff (s : String) :
    price_conversion s = ("") ↔ ∀ c ∈ beforeFirstDot s, c.isDigit = false := by
  have hdata : price_conversion s = ("") ↔
      (beforeFirstDot s).filter Char.isDigit = [] := by
    constructor
    · intro h
      have := congrArg String.toList h
      simpa [price_conversion] using this
    · intro h
      simp [price_conversion, h]
  rw [hdata, List.filter_eq_nil_iff]
  constructor
  · intro h c hc
    have := h c hc
    simpa using this
  · intro h c hc
    simp [h c hc]

/-- Claim C10: `price_conversion` is total on strings (its embedding is a
plain function, reflecting that `split`, indexing `[0]` and `re.sub`
cannot raise), its result consists solely of decimal digit characters,
and the result is empty exactly when no digit occurs before the first
dot; the result is a `String`, so numeric interpretation is left to each
caller. -/
theorem claim10_price_conversion_total_digit_string :
    ∀ s : String,
      (∀ c ∈ (price_conversion s).toList, c.isDigit = true) ∧
      (price_conversion s = ("") ↔ ∀ c ∈ beforeFirstDot s, c.isDigit = false) :=
  fun s => ⟨price_conversion_digits s, price_conversion_empty_iff s⟩

/-- Claim C3 (counterexample): the price mapping of the source,
`price_conversion`, does not fail on an input with no digits before the
first dot — on input with no digits it returns the empty string, and
seller's `create_prices` then returns a price entry carrying that empty
string rather than failing. -/
theorem claim3_counterexample :
    price_conversion ("no digits") = ("") ∧
    Seller.create_prices [⟨("X"), ("1"), ("no digits")⟩] [("X")] =
      [⟨("UNKNOWN"), ("RUB"), ("X"), ("0"), ("")⟩] := by
  exact ⟨by decide, by decide⟩

/-- Claim C3 (amended): when the substring before the first dot contains
no digit, `price_conversion` returns the empty string without failing;
market's `create_prices` then fails (its `int(...)` on the empty string,
modelled as `none`), while seller's `create_prices` returns an entry
whose price is the empty string. -/
theorem claim3_amended_no_digit_behavior (s : String)
    (h : ∀ c ∈ beforeFirstDot s, c.isDigit = false) :
    price_conversion s = ("") ∧
    pyIntParse (price_conversion s) = none ∧
    Market.create_prices [⟨("X"), ("1"), s⟩] [("X")] = none ∧
    Seller.create_prices [⟨("X"), ("1"), s⟩] [("X")] =
      [⟨("UNKNOWN"), ("RUB"), ("X"), ("0"), ("")⟩] := by
  have hempty : price_conversion s = ("") := (price_conversion_empty_iff s).mpr h
  refine ⟨hempty, ?_, ?_, ?_⟩
  · rw [hempty]; decide
  · simp only [Market.create_prices]
    rw [if_pos (by decide), hempty]
    decide
  · simp only [Seller.create_prices]
    rw [if_pos (by decide), hempty]

theorem claim3_witness :
    (∀ c ∈ beforeFirstDot ("no digits"), c.isDigit = false) ∧
    (price_conversion ("no digits") = ("") ∧
      pyIntParse (price_conversion ("no digits")) = none ∧
      Market.create_prices [⟨("X"), ("1"), ("no digits")⟩] [("X")] = none ∧
      Seller.create_prices [⟨("X"), ("1"), ("no digits")⟩] [("X")] =
        [⟨("UNKNOWN"), ("RUB"), ("X"), ("0"), ("")⟩]) :=
  ⟨by decide, claim3_amended_no_digit_behavior ("no digits") (by decide)⟩

/-- Claim C4 (counterexample): at the end-to-end scenario
(remnants A with quantity ">10" and price "100.00", B with quantity "1"
and price "50.00"; catalog A, B, C) the price values the code produces
are 100 and 50 — the integer part of the price text — not the
minor-currency-unit values 10000 and 5000 the claim states. -/
theorem claim4_counterexample :
    Market.create_prices [⟨("A"), (">10"), ("100.00")⟩, ⟨("B"), ("1"), ("50.00")⟩]
        [("A"), ("B"), ("C")] =
      some [⟨("A"), 100, ("RUR")⟩, ⟨("B"), 50, ("RUR")⟩] ∧
    Market.create_prices [⟨("A"), (">10"), ("100.00")⟩, ⟨("B"), ("1"), ("50.00")⟩]
        [("A"), ("B"), ("C")] ≠
      some [⟨("A"), 10000, ("RUR")⟩, ⟨("B"), 5000, ("RUR")⟩] := by
  exact ⟨by decide, by decide⟩

/-- Claim C4 (amended): at the end-to-end scenario the stock entries are
A with 100, B with 0 and C with 0, in that order, and the mutated
offer-id list left behind is ["C"]; when `create_prices` receives the
full catalog it returns entries for A and B with prices "100" and "50"
(the integer part of the price text, not minor units) and none for C;
in the actual seller.main composition, where `create_prices` receives
the list already mutated by `create_stocks`, it returns no entries. -/
theorem claim4_amended_end_to_end :
    Seller.create_stocks [⟨("A"), (">10"), ("100.00")⟩, ⟨("B"), ("1"), ("50.00")⟩]
        [("A"), ("B"), ("C")] =
      some ([⟨("A"), 100⟩, ⟨("B"), 0⟩, ⟨("C"), 0⟩], [("C")]) ∧
    Seller.create_prices [⟨("A"), (">10"), ("100.00")⟩, ⟨("B"), ("1"), ("50.00")⟩]
        [("A"), ("B"), ("C")] =
      [⟨("UNKNOWN"), ("RUB"), ("A"), ("0"), ("100")⟩,
       ⟨("UNKNOWN"), ("RUB"), ("B"), ("0"), ("50")⟩] ∧
    Seller.create_prices [⟨("A"), (">10"), ("100.00")⟩, ⟨("B"), ("1"), ("50.00")⟩]
        [("C")] = [] ∧
    Market.create_prices [⟨("A"), (">10"), ("100.00")⟩, ⟨("B"), ("1"), ("50.00")⟩]
        [("A"), ("B"), ("C")] =
      some [⟨("A"), 100, ("RUR")⟩, ⟨("B"), 50, ("RUR")⟩] := by
  exact ⟨by decide, by decide, by decide, by decide⟩

/-- Claim C5: the quantity mapping applied during reconciliation equals
the reference definition written from the spec, checked in order
(">10" to 100, "1" to 0, otherwise a base-10 integer parse), failing
exactly when the parse fails; in particular ">10" gives 100, "1" gives
0, "7" gives 7 and "abc" fails. The third conjunct ties the mapper to
`create_stocks` itself on a one-remnant, one-id catalog. -/
theorem claim5_quantity_mapping_matches_spec :
    (∀ d, quantityMap d = quantityMapperSpec d) ∧
    (∀ d, quantityMap d = none ↔
      (d ≠ (">10") ∧ d ≠ ("1") ∧ pyIntParse d = none)) ∧
    (∀ w : Remnant, Seller.create_stocks [w] [w.kod] =
      (quantityMapperSpec w.kolichestvo).map (fun q => ([⟨w.kod, q⟩], []))) ∧
    quantityMapperSpec (">10") = some 100 ∧ quantityMapperSpec ("1") = some 0 ∧
    quantityMapperSpec ("7") = some 7 ∧ quantityMapperSpec ("abc") = none := by
  refine ⟨fun d => rfl, ?_, ?_, by decide, by decide, by decide, by decide⟩
  · intro d
    unfold quantityMap
    by_cases h1 : d = (">10")
    · simp [h1]
    · by_cases h2 : d = ("1")
      · simp [h1, h2]
      · simp [h1, h2]
  · intro w
    show Seller.create_stocks [w] [w.kod] = _
    unfold Seller.create_stocks Seller.stocksLoop
    rw [if_pos (List.mem_singleton_self w.kod)]
    have : quantityMap w.kolichestvo = quantityMapperSpec w.kolichestvo := rfl
    rw [this]
    cases quantityMapperSpec w.kolichestvo with
    | none => rfl
    | some q =>
      simp [Seller.stocksLoop, List.erase_cons_head]

/-- Claim C7 (evaluation at the failing input): `divide` with a negative
size returns normally, yielding no chunks (for a negative step,
`range(0, len(lst), n)` is empty), instead of raising; only size 0
raises (`range` rejects a zero step). This contradicts the claim and
the function docstring, which promise a `ValueError` for every
size <= 0. -/
theorem claim7_divide_negative_size_returns_empty :
    divide ([1, 2, 3, 4] : List Nat) (-1) = some [] ∧
    divide ([1, 2, 3, 4] : List Nat) (-1) ≠ none ∧
    divide ([1, 2, 3, 4] : List Nat) 0 = none := by
  exact ⟨by decide, by decide, by decide⟩

/-- Claim C8 (counterexample): the outputs are not independent of prior
calls, list aliasing and the clock. Running seller's `create_stocks` a
second time on the offer-id list state left behind by the first call —
which is what calling it twice through the same aliased Python list
does — returns no matched entries where the first call returned one;
and market's `create_stocks` output embeds the current timestamp, so
identical remnant/catalog inputs at different clock readings give
different outputs. -/
theorem claim8_counterexample :
    Seller.create_stocks [⟨("A"), ("5"), ("10.00")⟩] [("A")] =
      some ([⟨("A"), 5⟩], []) ∧
    Seller.create_stocks [⟨("A"), ("5"), ("10.00")⟩] [] = some ([], []) ∧
    (([⟨("A"), 5⟩] : List StockEntry) ≠ []) ∧
    Market.create_stocks [⟨("A"), ("5"), ("10.00")⟩] [("A")] ("W")
        ("2024-01-01T00:00:00Z") ≠
      Market.create_stocks [⟨("A"), ("5"), ("10.00")⟩] [("A")] ("W")
        ("2024-01-02T00:00:00Z") := by
  exact ⟨by decide, by decide, by decide, by decide⟩

/-- The chunking body yields nothing on an empty input, for any fuel. -/
theorem chunkListFuel_nil {α : Type} (n fuel : Nat) :
    chunkListFuel n fuel ([] : List α) = [] := by
  cases fuel <;> rfl

/-- With enough fuel and a positive slice width, concatenating the
produced slices gives back the input. -/
theorem chunkListFuel_flatten {α : Type} {n : Nat} (hn : n ≠ 0) :
    ∀ (fuel : Nat) (l : List α), l.length ≤ fuel →
      (chunkListFuel n fuel l).flatten = l := by
  intro fuel
  induction fuel with
  | zero =>
    intro l hl
    cases l with
    | nil => rfl
    | cons x xs => simp at hl
  | succ fuel ih =>
    intro l hl
    cases l with
    | nil => rfl
    | cons x xs =>
      have hdl : ((x :: xs).drop n).length ≤ fuel := by
        rw [List.length_drop]
        simp only [List.length_cons] at hl ⊢
        omega
      show ((x :: xs).take n :: chunkListFuel n fuel ((x :: xs).drop n)).flatten = x :: xs
      rw [List.flatten_cons, ih _ hdl]
      exact List.take_append_drop n (x :: xs)

/-- With enough fuel and a positive slice width, every produced slice is
nonempty and no longer than the width. -/
theorem chunkListFuel_mem_length {α : Type} {n : Nat} (hn : n ≠ 0) :
    ∀ (fuel : Nat) (l : List α), l.length ≤ fuel →
      ∀ c ∈ chunkListFuel n fuel l, c ≠ [] ∧ c.length ≤ n := by
  intro fuel
  induction fuel with
  | zero =>
    intro l hl c hc
    cases l with
    | nil => simp [chunkListFuel_nil] at hc
    | cons x xs => simp at hl
  | succ fuel ih =>
    intro l hl c hc
    cases l with
    | nil => simp [chunkListFuel_nil] at hc
    | cons x xs =>
      have hdl : ((x :: xs).drop n).length ≤ fuel := by
        rw [List.length_drop]
        simp only [List.length_cons] at hl ⊢
        omega
      have hc2 : c = (x :: xs).take n ∨ c ∈ chunkListFuel n fuel ((x :: xs).drop n) :=
        List.mem_cons.mp hc
      rcases hc2 with hc2 | hc2
      · subst hc2
        refine ⟨?_, ?_⟩
        · simp [List.take_eq_nil_iff, hn]
        · simp [List.length_take]
      · exact ih _ hdl c hc2

/-- With enough fuel and a positive slice width, every produced slice
except possibly the last has length exactly the width. -/
theorem chunkListFuel_dropLast_length {α : Type} {n : Nat} (hn : n ≠ 0) :
    ∀ (fuel : Nat) (l : List α), l.length ≤ fuel →
      ∀ c ∈ (chunkListFuel n fuel l).dropLast, c.length = n := by
  intro fuel
  induction fuel with
  | zero =>
    intro l hl c hc
    cases l with
    | nil => simp [chunkListFuel_nil] at hc
    | cons x xs => simp at hl
  | succ fuel ih =>
    intro l hl c hc
    cases l with
    | nil => simp [chunkListFuel_nil] at hc
    | cons x xs =>
      have hdl : ((x :: xs).drop n).length ≤ fuel := by
        rw [List.length_drop]
        simp only [List.length_cons] at hl ⊢
        omega
      have hchunk : chunkListFuel n (fuel + 1) (x :: xs) =
          (x :: xs).take n :: chunkListFuel n fuel ((x :: xs).drop n) := rfl
      rw [hchunk] at hc
      cases hrest : chunkListFuel n fuel ((x :: xs).drop n) with
      | nil =>
        rw [hrest] at hc
        simp at hc
      | cons b bs =>
        rw [hrest, List.dropLast_cons₂] at hc
        have hc2 : c = (x :: xs).take n ∨ c ∈ (b :: bs).dropLast :=
          List.mem_cons.mp hc
        rcases hc2 with hc2 | hc2
        · subst hc2
          have hnle : n ≤ (x :: xs).length := by
            by_contra hlt
            push_neg at hlt
            have hdrop : (x :: xs).drop n = [] := by
              rw [List.drop_eq_nil_iff]
              omega
            rw [hdrop, chunkListFuel_nil] at hrest
            exact List.noConfusion hrest
          simp only [List.length_cons] at hnle
          simp [List.length_take]
          omega
        · rw [← hrest] at hc2
          exact ih _ hdl c hc2

/-- Claim C6: for every list `L` and integer size `n ≥ 1`, `divide`
returns a chunk list whose in-order concatenation reproduces `L`
exactly; every chunk except possibly the last has length exactly `n`,
every chunk (the last included) is nonempty with length at most `n`,
and the chunk list is nonempty whenever `L` is. -/
theorem claim6_divide_reassembles (α : Type) (L : List α) (n : Int) (h : 1 ≤ n) :
    ∃ cs, divide L n = some cs ∧
      cs.flatten = L ∧
      (∀ c ∈ cs.dropLast, c.length = n.toNat) ∧
      (∀ c ∈ cs, c ≠ [] ∧ c.length ≤ n.toNat) ∧
      (L ≠ [] → cs ≠ []) := by
  have hn0 : n ≠ 0 := by omega
  have hnneg : ¬ n < 0 := by omega
  have hnat : n.toNat ≠ 0 := by omega
  refine ⟨chunkList n.toNat L, ?_, ?_, ?_, ?_, ?_⟩
  · simp [divide, hn0, hnneg]
  · exact chunkListFuel_flatten hnat L.length L (Nat.le_refl _)
  · exact chunkListFuel_dropLast_length hnat L.length L (Nat.le_refl _)
  · exact chunkListFuel_mem_length hnat L.length L (Nat.le_refl _)
  · intro hL
    cases L with
    | nil => exact absurd rfl hL
    | cons x xs =>
      show chunkListFuel n.toNat (xs.length + 1) (x :: xs) ≠ []
      exact fun hfalse => List.noConfusion hfalse

theorem claim6_witness :
    (1 : Int) ≤ 2 ∧
    ∃ cs, divide ([1, 2, 3, 4, 5] : List Nat) 2 = some cs ∧
      cs.flatten = [1, 2, 3, 4, 5] ∧
      (∀ c ∈ cs.dropLast, c.length = (2 : Int).toNat) ∧
      (∀ c ∈ cs, c ≠ [] ∧ c.length ≤ (2 : Int).toNat) ∧
      (([1, 2, 3, 4, 5] : List Nat) ≠ [] → cs ≠ []) :=
  ⟨by decide, claim6_divide_reassembles Nat [1, 2, 3, 4, 5] 2 (by decide)⟩

/-- Master description of seller `create_stocks` under a duplicate-free
catalog and mappable quantities: the run succeeds, the output is the
matched entries followed by zero-fill entries, its offer ids are a
permutation of the catalog, and each catalog id heads exactly one
entry. -/
theorem create_stocks_master (R : List Remnant) (C : List String) (hnd : C.Nodup)
    (hv : ∀ w ∈ R, w.kod ∈ C → (quantityMap w.kolichestvo).isSome) :
    ∃ m rem, Seller.stocksLoop R C = some (m, rem) ∧
      Seller.create_stocks R C = some (m ++ rem.map (fun id => ⟨id, 0⟩), rem) ∧
      ((m ++ rem.map (fun id => (⟨id, 0⟩ : StockEntry))).map
        (fun e => e.offer_id)).Perm C ∧
      (∀ id ∈ C, ((m ++ rem.map (fun id => (⟨id, 0⟩ : StockEntry))).filter
        (fun e => decide (e.offer_id = id))).length = 1) := by
  obtain ⟨m, rem, hloop⟩ := Seller.stocksLoop_total R C hv
  have hperm := Seller.stocksLoop_perm hloop
  have hmap : (m ++ rem.map (fun id => (⟨id, 0⟩ : StockEntry))).map
      (fun e => e.offer_id) = (m.map fun e => e.offer_id) ++ rem := by
    rw [List.map_append, List.map_map]
    have hid : List.map ((fun e => e.offer_id) ∘
        fun id => ({ offer_id := id, stock := 0 } : StockEntry)) rem = rem := by
      show List.map (fun id : String => id) rem = rem
      simp
    rw [hid]
  have hpermstocks : ((m ++ rem.map (fun id => (⟨id, 0⟩ : StockEntry))).map
      (fun e => e.offer_id)).Perm C := by
    rw [hmap]
    exact hperm
  refine ⟨m, rem, hloop, ?_, hpermstocks, ?_⟩
  · unfold Seller.create_stocks
    rw [hloop]
  · intro id hid
    rw [← List.countP_eq_length_filter]
    have h1 : ((m ++ rem.map (fun id => (⟨id, 0⟩ : StockEntry))).map
        (fun e => e.offer_id)).countP (fun c => decide (c = id)) =
        (m ++ rem.map (fun id => (⟨id, 0⟩ : StockEntry))).countP
          (fun e => decide (e.offer_id = id)) := by
      rw [List.countP_map]
      rfl
    rw [← h1, hpermstocks.countP_eq]
    exact countP_eq_one_of_nodup_mem hnd hid

/-- Claim C1: for a duplicate-free catalog whose matched remnants all
carry mappable quantity descriptors, seller `create_stocks` succeeds and
returns one stock entry per catalog id: the output length equals the
catalog length, every catalog id heads exactly one entry, every entry
id is from the catalog, every entry carries either the mapped quantity
of a remnant with its code or quantity 0, and every catalog id matched
by no remnant gets the zero-quantity entry. -/
theorem claim1_create_stocks_covers_catalog (R : List Remnant) (C : List String)
    (hnd : C.Nodup)
    (hv : ∀ w ∈ R, w.kod ∈ C → (quantityMap w.kolichestvo).isSome) :
    ∃ stocks rem, Seller.create_stocks R C = some (stocks, rem) ∧
      stocks.length = C.length ∧
      (∀ id ∈ C, (stocks.filter (fun e => decide (e.offer_id = id))).length = 1) ∧
      (∀ e ∈ stocks, e.offer_id ∈ C) ∧
      (∀ e ∈ stocks,
        (∃ w ∈ R, w.kod = e.offer_id ∧ quantityMap w.kolichestvo = some e.stock) ∨
          e.stock = 0) ∧
      (∀ id ∈ C, (∀ w ∈ R, w.kod ≠ id) → (⟨id, 0⟩ : StockEntry) ∈ stocks) := by
  obtain ⟨m, rem, hloop, hcs, hpermstocks, hcount⟩ := create_stocks_master R C hnd hv
  have hperm := Seller.stocksLoop_perm hloop
  refine ⟨m ++ rem.map (fun id => ⟨id, 0⟩), rem, hcs, ?_, hcount, ?_, ?_, ?_⟩
  · have := hpermstocks.length_eq
    rwa [List.length_map] at this
  · intro e he
    exact hpermstocks.subset (List.mem_map_of_mem _ he)
  · intro e he
    rcases List.mem_append.mp he with hem | herem
    · exact Or.inl (Seller.stocksLoop_matched hloop e hem)
    · obtain ⟨id, _hid, hide⟩ := List.mem_map.mp herem
      right
      rw [← hide]
  · intro id hid hno
    have hidmem : id ∈ (m.map fun e => e.offer_id) ++ rem := hperm.symm.subset hid
    rcases List.mem_append.mp hidmem with hin | hin
    · obtain ⟨e, hem, hoid⟩ := List.mem_map.mp hin
      obtain ⟨w, hw, hkod, _⟩ := Seller.stocksLoop_matched hloop e hem
      exact absurd (hkod.trans hoid) (hno w hw)
    · exact List.mem_append.mpr (Or.inr (List.mem_map.mpr ⟨id, hin, rfl⟩))

theorem claim1_witness :
    ∃ stocks rem,
      Seller.create_stocks [⟨("A"), (">10"), ("9.99")⟩] [("A"), ("B")] =
        some (stocks, rem) ∧
      stocks.length = ([("A"), ("B")] : List String).length ∧
      (∀ id ∈ ([("A"), ("B")] : List String),
        (stocks.filter (fun e => decide (e.offer_id = id))).length = 1) ∧
      (∀ e ∈ stocks, e.offer_id ∈ ([("A"), ("B")] : List String)) ∧
      (∀ e ∈ stocks,
        (∃ w ∈ [⟨("A"), (">10"), ("9.99")⟩], Remnant.kod w = e.offer_id ∧
          quantityMap (Remnant.kolichestvo w) = some e.stock) ∨ e.stock = 0) ∧
      (∀ id ∈ ([("A"), ("B")] : List String),
        (∀ w ∈ [⟨("A"), (">10"), ("9.99")⟩], Remnant.kod w ≠ id) →
          (⟨id, 0⟩ : StockEntry) ∈ stocks) :=
  claim1_create_stocks_covers_catalog [⟨("A"), (">10"), ("9.99")⟩] [("A"), ("B")]
    (by decide) (by decide)

/-- Claim C2: seller `create_prices` emits, in remnant order, exactly one
price entry per remnant whose code is in the offer-id list (duplicate
codes produce duplicate entries); the entry count equals the matching
remnant count (in particular never exceeds it) and no entry carries an
id absent from the list; yet the stock pass under a duplicate-free
catalog produces exactly one stock entry per id even when several
remnants share that code. -/
theorem claim2_create_prices_per_matching_remnant (R : List Remnant) (C : List String) :
    (Seller.create_prices R C).map (fun e => e.offer_id) =
      (R.map (fun w => w.kod)).filter (fun c => decide (c ∈ C)) ∧
    (Seller.create_prices R C).length =
      (R.filter (fun w => decide (w.kod ∈ C))).length ∧
    (∀ e ∈ Seller.create_prices R C, e.offer_id ∈ C) ∧
    (C.Nodup → (∀ w ∈ R, w.kod ∈ C → (quantityMap w.kolichestvo).isSome) →
      ∃ stocks rem, Seller.create_stocks R C = some (stocks, rem) ∧
        ∀ id ∈ C, (stocks.filter (fun e => decide (e.offer_id = id))).length = 1) := by
  refine ⟨Seller.create_prices_map_offer_id R C, Seller.create_prices_length R C, ?_, ?_⟩
  · intro e he
    have hmem : e.offer_id ∈ (Seller.create_prices R C).map (fun e => e.offer_id) :=
      List.mem_map_of_mem _ he
    rw [Seller.create_prices_map_offer_id R C] at hmem
    exact of_decide_eq_true (List.mem_filter.mp hmem).2
  · intro hnd hv
    obtain ⟨m, rem, _hloop, hcs, _hperm, hcount⟩ := create_stocks_master R C hnd hv
    exact ⟨m ++ rem.map (fun id => ⟨id, 0⟩), rem, hcs, hcount⟩

theorem claim2_witness :
    ((Seller.create_prices [⟨("A"), ("5"), ("10.00")⟩, ⟨("A"), ("7"), ("20.00")⟩]
        [("A")]).map (fun e => e.offer_id) =
      ([⟨("A"), ("5"), ("10.00")⟩, ⟨("A"), ("7"), ("20.00")⟩].map
        (fun w => Remnant.kod w)).filter (fun c => decide (c ∈ [("A")]))) ∧
    ((Seller.create_prices [⟨("A"), ("5"), ("10.00")⟩, ⟨("A"), ("7"), ("20.00")⟩]
        [("A")]).length =
      ([⟨("A"), ("5"), ("10.00")⟩, ⟨("A"), ("7"), ("20.00")⟩].filter
        (fun w => decide (Remnant.kod w ∈ [("A")]))).length) ∧
    (∀ e ∈ Seller.create_prices [⟨("A"), ("5"), ("10.00")⟩, ⟨("A"), ("7"), ("20.00")⟩]
        [("A")], e.offer_id ∈ ([("A")] : List String)) ∧
    (∃ stocks rem,
      Seller.create_stocks [⟨("A"), ("5"), ("10.00")⟩, ⟨("A"), ("7"), ("20.00")⟩]
        [("A")] = some (stocks, rem) ∧
      ∀ id ∈ ([("A")] : List String),
        (stocks.filter (fun e => decide (e.offer_id = id))).length = 1) := by
  have h := claim2_create_prices_per_matching_remnant
    [⟨("A"), ("5"), ("10.00")⟩, ⟨("A"), ("7"), ("20.00")⟩] [("A")]
  exact ⟨h.1, h.2.1, h.2.2.1, h.2.2.2 (by decide) (by decide)⟩

/-- Claim C9: seller `create_stocks` consumes its caller's offer-id list:
for a duplicate-free catalog with mappable matched quantities, the final
list contents are exactly the catalog ids that head no matched entry
(the ones that received zero-quantity entries), no remnant code remains
in it, and consequently `create_prices` called on that same mutated
list — as seller.main does — produces no entries. -/
theorem claim9_create_stocks_mutates_offer_ids (R : List Remnant) (C : List String)
    (hnd : C.Nodup)
    (hv : ∀ w ∈ R, w.kod ∈ C → (quantityMap w.kolichestvo).isSome) :
    ∃ m rem, Seller.stocksLoop R C = some (m, rem) ∧
      Seller.create_stocks R C = some (m ++ rem.map (fun id => ⟨id, 0⟩), rem) ∧
      (∀ c, c ∈ rem ↔ (c ∈ C ∧ c ∉ m.map (fun e => e.offer_id))) ∧
      (∀ w ∈ R, w.kod ∉ rem) ∧
      Seller.create_prices R rem = [] := by
  obtain ⟨m, rem, hloop⟩ := Seller.stocksLoop_total R C hv
  have hperm := Seller.stocksLoop_perm hloop
  have hnd2 : ((m.map fun e => e.offer_id) ++ rem).Nodup := (hperm.nodup_iff).mpr hnd
  have hdisj := (List.nodup_append.mp hnd2).2.2
  have hunmatched := Seller.stocksLoop_rem_unmatched hnd hloop
  refine ⟨m, rem, hloop, ?_, ?_, hunmatched, ?_⟩
  · unfold Seller.create_stocks
    rw [hloop]
  · intro c
    constructor
    · intro hc
      refine ⟨hperm.subset (List.mem_append.mpr (Or.inr hc)), ?_⟩
      intro hcm
      exact hdisj hcm hc
    · rintro ⟨hcC, hcm⟩
      have hc2 : c ∈ (m.map fun e => e.offer_id) ++ rem := hperm.symm.subset hcC
      rcases List.mem_append.mp hc2 with h1 | h1
      · exact absurd h1 hcm
      · exact h1
  · exact Seller.create_prices_no_match R rem hunmatched

theorem claim9_witness :
    ∃ m rem,
      Seller.stocksLoop [⟨("A"), ("5"), ("1.0")⟩] [("A"), ("B")] = some (m, rem) ∧
      Seller.create_stocks [⟨("A"), ("5"), ("1.0")⟩] [("A"), ("B")] =
        some (m ++ rem.map (fun id => ⟨id, 0⟩), rem) ∧
      (∀ c, c ∈ rem ↔ (c ∈ ([("A"), ("B")] : List String) ∧
        c ∉ m.map (fun e => e.offer_id))) ∧
      (∀ w ∈ [⟨("A"), ("5"), ("1.0")⟩], Remnant.kod w ∉ rem) ∧
      Seller.create_prices [⟨("A"), ("5"), ("1.0")⟩] rem = [] :=
  claim9_create_stocks_mutates_offer_ids [⟨("A"), ("5"), ("1.0")⟩] [("A"), ("B")]
    (by decide) (by decide)

/-- Claim C8 (amended): the reconciliation output is a deterministic,
order-stable function of the remnant list, the offer-id list value and
(for market) the explicit timestamp, but it is not independent of list
aliasing or prior calls: a second `create_stocks` run on the offer-id
list state left by a first run — what the aliased Python list gives —
matches nothing and returns only the zero-fill entries, and
`create_prices` on that state returns no entries. -/
theorem claim8_amended_second_run_differs (R : List Remnant) (C : List String)
    (hnd : C.Nodup)
    (hv : ∀ w ∈ R, w.kod ∈ C → (quantityMap w.kolichestvo).isSome) :
    ∃ stocks rem, Seller.create_stocks R C = some (stocks, rem) ∧
      Seller.create_stocks R rem = some (rem.map (fun id => ⟨id, 0⟩), rem) ∧
      Seller.create_prices R rem = [] := by
  obtain ⟨m, rem, hloop⟩ := Seller.stocksLoop_total R C hv
  have hunmatched := Seller.stocksLoop_rem_unmatched hnd hloop
  refine ⟨m ++ rem.map (fun id => ⟨id, 0⟩), rem, ?_, ?_, ?_⟩
  · unfold Seller.create_stocks
    rw [hloop]
  · unfold Seller.create_stocks
    rw [Seller.stocksLoop_no_match R rem hunmatched]
    simp
  · exact Seller.create_prices_no_match R rem hunmatched

theorem claim8_witness :
    ∃ stocks rem,
      Seller.create_stocks [⟨("A"), ("5"), ("1.0")⟩] [("A"), ("B")] =
        some (stocks, rem) ∧
      Seller.create_stocks [⟨("A"), ("5"), ("1.0")⟩] rem =
        some (rem.map (fun id => ⟨id, 0⟩), rem) ∧
      Seller.create_prices [⟨("A"), ("5"), ("1.0")⟩] rem = [] :=
  claim8_amended_second_run_differs [⟨("A"), ("5"), ("1.0")⟩] [("A"), ("B")]
    (by decide) (by decide)

end Claims
